import Mathlib

/-!
# Verification of the River VS Code extension core (`src/extension.js`)

A shallow embedding of the extension's core logic:

* `runAlloyFmt` — the promise returned by spawning `alloy fmt -` and feeding
  the document on stdin (resolution/rejection as a function of the process
  outcome);
* `parseAlloyErrors` — the stderr parser built on the regex
  `/<stdin>:(\d+):(\d+):\s*([^<]+)/g` applied to the whitespace-normalized
  stderr (`stderr.replace(/\s+/g, ' ').trim()`);
* the background validation scheduler (`scheduleValidate`, the timer map,
  the `close`-event handler of `validate`, and the
  `onDidCloseTextDocument` handler), modelled as a step function on an
  explicit state, with process completions delivered as events;
* `provideDocumentFormattingEdits` — edits and error popups produced by the
  explicit format action.

Strings are modelled as `List Char` internally; `String` wrappers are used at
the API boundary.  All definitions are executable and structural, so concrete runs
evaluate by `decide`/`rfl`.
-/

namespace River

/-! ## Character classes

`jsWhitespace` is the character class of the JavaScript regex `\s` (and of
`String.prototype.trim`): ASCII whitespace, NBSP, the Unicode space
separators, line/paragraph separators, and the BOM, written on code points. -/

def jsWhitespace (c : Char) : Bool :=
  c.toNat = 9 || c.toNat = 10 || c.toNat = 11 || c.toNat = 12 ||
  c.toNat = 13 || c.toNat = 32 || c.toNat = 160 || c.toNat = 5760 ||
  (8192 ≤ c.toNat && c.toNat ≤ 8202) || c.toNat = 8232 || c.toNat = 8233 ||
  c.toNat = 8239 || c.toNat = 8287 || c.toNat = 12288 || c.toNat = 65279

/-- The character class of the JavaScript regex `\d`, i.e. `[0-9]`. -/
def isDig (c : Char) : Bool := 48 ≤ c.toNat && c.toNat ≤ 57

/-! ## `stderr.replace(/\s+/g, ' ')` and `.trim()` -/

/-- One pass of `replace(/\s+/g, ' ')`: every maximal run of whitespace
becomes a single space.  `inWS` records whether the previous character was
whitespace (i.e. whether we are inside a run whose space is already
emitted). -/
def collapseAux (inWS : Bool) : List Char → List Char
  | [] => []
  | c :: cs =>
    if jsWhitespace c then
      if inWS then collapseAux true cs else ' ' :: collapseAux true cs
    else c :: collapseAux false cs

/-- Leading-whitespace removal (half of `String.prototype.trim`). -/
def dropWS (l : List Char) : List Char := l.dropWhile jsWhitespace

/-- Trailing-whitespace removal (the other half of `trim`). -/
def dropEndWS (l : List Char) : List Char :=
  (l.reverse.dropWhile jsWhitespace).reverse

/-- `String.prototype.trim`. -/
def trimWS (l : List Char) : List Char := dropEndWS (dropWS l)

/-! ## The error regex `/<stdin>:(\d+):(\d+):\s*([^<]+)/g`

`matchAt l` attempts the regex at the start of `l` exactly as the JS engine
does: the literal `<stdin>:`, a maximal nonempty digit run, `:`, a maximal
nonempty digit run, `:`, then `\s*` (greedy) followed by `([^<]+)` (greedy,
at least one character).  When the greedy `\s*` leaves nothing for `[^<]+`
(end of input or an immediate `<`), the engine backtracks `\s*` by one
character, which `[^<]+` then captures (whitespace is not `<`).  On success
it returns the two digit captures, the `([^<]+)` capture, and the remainder
of the input after the match. -/

/-- The literal `<stdin>:` of the regex. -/
def marker : List Char := ['<', 's', 't', 'd', 'i', 'n', '>', ':']

def matchTail (rest : List Char) :
    Option (List Char × List Char × List Char × List Char) :=
  let d1 := rest.takeWhile isDig
  if d1 = [] then none else
  match rest.dropWhile isDig with
  | ':' :: r2 =>
    let d2 := r2.takeWhile isDig
    if d2 = [] then none else
    match r2.dropWhile isDig with
    | ':' :: r4 =>
      let w := r4.takeWhile jsWhitespace
      match r4.dropWhile jsWhitespace with
      | [] => if w = [] then none else some (d1, d2, [w.getLastD ' '], [])
      | c :: t' =>
        if c = '<' then
          if w = [] then none else some (d1, d2, [w.getLastD ' '], c :: t')
        else
          some (d1, d2,
            (c :: t').takeWhile (fun x => decide (x ≠ '<')),
            (c :: t').dropWhile (fun x => decide (x ≠ '<')))
    | _ => none
  | _ => none

def matchAt (l : List Char) :
    Option (List Char × List Char × List Char × List Char) :=
  if l.take 8 = marker then matchTail (l.drop 8) else none

/-- The `while ((m = re.exec(normalized)))` loop: find the leftmost match at
or after the current position, emit its captures, continue after it.  The
fuel argument is the length of the input; each step either advances one
character (no match here) or consumes the whole match, so the input length
is always enough fuel (`scanF_congr` below). -/
def scanF : Nat → List Char → List (List Char × List Char × List Char)
  | 0, _ => []
  | _ + 1, [] => []
  | f + 1, c :: cs =>
    match matchAt (c :: cs) with
    | some (d1, d2, g3, rest) => (d1, d2, g3) :: scanF f rest
    | none => scanF f cs

def scan (l : List Char) : List (List Char × List Char × List Char) :=
  scanF l.length l

/-! ## `parseAlloyErrors` -/

structure PositionedError where
  line : Int
  col : Int
  message : String
deriving DecidableEq, Repr

/-- `parseInt(digits, 10)` on a digit-only capture. -/
def digitsToNat (ds : List Char) : Nat :=
  ds.foldl (fun a c => 10 * a + (c.toNat - 48)) 0

/-- The loop body: `Math.max(0, parseInt(m[1], 10) - 1)`,
`Math.max(0, parseInt(m[2], 10) - 1)`, `m[3].trim()`. -/
def mkErr (g : List Char × List Char × List Char) : PositionedError :=
  { line := max 0 ((digitsToNat g.1 : Int) - 1)
    col := max 0 ((digitsToNat g.2.1 : Int) - 1)
    message := String.mk (trimWS g.2.2) }

def parseAlloyErrorsL (stderr : List Char) : List PositionedError :=
  if stderr = [] then []
  else (scan (trimWS (collapseAux false stderr))).map mkErr

def parseAlloyErrors (stderr : String) : List PositionedError :=
  parseAlloyErrorsL stderr.data

/-! ## `runAlloyFmt`

The promise settles from exactly one of three event sources: the child's
`error` event (spawn failure), the synchronous `try/catch` around
`child.stdin.write` (write failure), or the `close` event carrying the exit
code (`null` when the process was killed or never ran) and the accumulated
stdout/stderr.  `ProcOutcome` records which source settles the promise
first; `runAlloyFmt` maps it to the settlement the handlers produce. -/

inductive ProcOutcome where
  | spawnError (reason : String)
  | writeError (reason : String)
  | exited (code : Option Int) (stdout : String) (stderr : String)

inductive FmtResult where
  | resolved (text : String)
  | rejected (message : String)
deriving DecidableEq, Repr

/-- JavaScript template interpolation `${code}` for the close-event code
(`number | null`). -/
def jsCodeToString : Option Int → String
  | none => "null"
  | some n => toString n

def runAlloyFmt : ProcOutcome → FmtResult
  | .spawnError reason => .rejected ("Failed to start formatter: " ++ reason)
  | .writeError reason => .rejected ("Failed to write to formatter: " ++ reason)
  | .exited code stdout stderr =>
    if code = some 0 then .resolved stdout
    else .rejected
      (if stderr = "" then "alloy fmt exited with code " ++ jsCodeToString code
       else stderr)

/-! ## The `.catch` test `/<stdin>:\d+:\d+:/.test(msg)` -/

def posTestTail (rest : List Char) : Bool :=
  (!(rest.takeWhile isDig).isEmpty) &&
  (match rest.dropWhile isDig with
   | ':' :: r2 =>
     (!(r2.takeWhile isDig).isEmpty) &&
     (match r2.dropWhile isDig with
      | ':' :: _ => true
      | _ => false)
   | _ => false)

def posTestAt (l : List Char) : Bool :=
  if l.take 8 = marker then posTestTail (l.drop 8) else false

/-- `re.test(msg)` for `/<stdin>:\d+:\d+:/`: a match starting at some
position of the string. -/
def hasPositions : List Char → Bool
  | [] => false
  | c :: cs => posTestAt (c :: cs) || hasPositions cs

/-! ## `provideDocumentFormattingEdits`

A document is modelled by its list of lines (VS Code documents always have
at least one line); `getText` joins them, `lineAt(0).range.start` is
`(0, 0)` and `lineAt(lineCount - 1).range.end` is the last line's
`(index, length)`.  The provider returns the list of edits the promise
resolves to together with the list of error popups shown by the `.catch`
handler. -/

structure TextEdit where
  rangeStart : Nat × Nat
  rangeEnd : Nat × Nat
  newText : String
deriving DecidableEq, Repr

def getText (lines : List (List Char)) : String :=
  String.mk (List.intercalate ['\n'] lines)

def fullRange (lines : List (List Char)) : (Nat × Nat) × (Nat × Nat) :=
  ((0, 0), (lines.length - 1, (lines.getLastD []).length))

def riverHint : String :=
  "Ensure `alloy` is installed and on PATH, or set `river.alloyPath`."

def formatFailedPopup (msg : String) : String :=
  "River format failed: " ++ msg ++ " " ++ riverHint

def provideDocumentFormattingEdits (lines : List (List Char))
    (outcome : ProcOutcome) : List TextEdit × List String :=
  match runAlloyFmt outcome with
  | .resolved formatted =>
    if formatted = getText lines then ([], [])
    else ([⟨(fullRange lines).1, (fullRange lines).2, formatted⟩], [])
  | .rejected msg =>
    if hasPositions msg.data then ([], [])
    else ([], [formatFailedPopup msg])

/-! ## The background validation scheduler (`setupDiagnostics`)

State: the diagnostic collection (`uri ↦ published diagnostics`, stored as
the parsed records the `close` handler maps 1:1 into `vscode.Diagnostic`s),
the per-document timer map, and the set of in-flight `alloy fmt` processes
whose `close` handlers are still registered.  `nextId` supplies fresh timer
and process handles; `popups` records `showErrorMessage` calls —
`setupDiagnostics` never makes one, so every scheduler transition leaves it
unchanged.

Documents are identified by `uri.toString()`, modelled as `Nat`.

Events deliver the asynchronous callbacks: a `scheduleValidate` call, a
pending timer firing (only the timer currently in the map can fire — a
replaced or closed timer was `clearTimeout`ed first), an in-flight process'
`close` event (with its exit code and accumulated stderr), and
`onDidCloseTextDocument`.  `fire` carries `writeOk = false` when
`child.stdin.write` throws, taking the `catch` branch of `validate`. -/

abbrev DocId := Nat

def eraseKey {α : Type} (k : DocId) (m : List (DocId × α)) : List (DocId × α) :=
  m.filter (fun p => p.1 != k)

def setKey {α : Type} (k : DocId) (v : α) (m : List (DocId × α)) :
    List (DocId × α) :=
  (k, v) :: eraseKey k m

structure RiverState where
  collection : List (DocId × List PositionedError)
  timers : List (DocId × Nat)
  inflight : List (DocId × Nat)
  nextId : Nat
  popups : List String
deriving DecidableEq, Repr

def initState : RiverState := ⟨[], [], [], 0, []⟩

/-- The `close` handler of `validate`: exit code `0` clears the document's
diagnostics; otherwise the parsed stderr is published, unless it is empty,
in which case diagnostics are cleared too. -/
def validateOnClose (code : Option Int) (stderr : String) :
    List PositionedError :=
  if code = some 0 then []
  else
    let parsed := parseAlloyErrors stderr
    if parsed = [] then [] else parsed

inductive Ev where
  | schedule (d : DocId)
  | fire (d : DocId) (t : Nat) (writeOk : Bool)
  | procClose (d : DocId) (tag : Nat) (code : Option Int) (stderr : String)
  | closeDoc (d : DocId)

/-- `scheduleValidate`: `clearTimeout` any existing timer for the document
and install a fresh one. -/
def scheduleValidate (d : DocId) (s : RiverState) : RiverState :=
  { s with timers := setKey d s.nextId s.timers, nextId := s.nextId + 1 }

/-- A pending timer fires: `timers.delete(key)`, then `validate` spawns a
child whose `close` handler is now registered; if `child.stdin.write`
throws, the `catch` clears the document's diagnostics (the handler stays
registered). -/
def timerFire (d : DocId) (t : Nat) (writeOk : Bool) (s : RiverState) :
    RiverState :=
  if s.timers.lookup d = some t then
    let s1 := { s with
      timers := eraseKey d s.timers
      inflight := (d, s.nextId) :: s.inflight
      nextId := s.nextId + 1 }
    if writeOk then s1
    else { s1 with collection := setKey d [] s1.collection }
  else s

/-- An in-flight process' `close` event: the handler publishes
`validateOnClose` for the captured document, unconditionally. -/
def procCloseEv (d : DocId) (tag : Nat) (code : Option Int) (stderr : String)
    (s : RiverState) : RiverState :=
  if (d, tag) ∈ s.inflight then
    { s with
      inflight := s.inflight.erase (d, tag)
      collection := setKey d (validateOnClose code stderr) s.collection }
  else s

/-- `onDidCloseTextDocument`: `collection.delete(uri)`, `clearTimeout`, and
`timers.delete(key)`.  In-flight processes are not touched. -/
def closeDocEv (d : DocId) (s : RiverState) : RiverState :=
  { s with collection := eraseKey d s.collection, timers := eraseKey d s.timers }

def step : Ev → RiverState → RiverState
  | .schedule d => scheduleValidate d
  | .fire d t writeOk => timerFire d t writeOk
  | .procClose d tag code stderr => procCloseEv d tag code stderr
  | .closeDoc d => closeDocEv d

def run (evs : List Ev) : RiverState :=
  evs.foldl (fun s e => step e s) initState

/-! ## Rendering of error-record inputs

For the universally quantified parser property, a stderr stream made of
records `<stdin>:L:C: msg` is described by `GRec`: the decimal digits of
the line and column, the whitespace between the third colon and the
message, the free-text message, and the whitespace separating the record
from what follows (empty, or any run of whitespace / newlines). -/

structure GRec where
  lineDigits : List Char
  colDigits : List Char
  wInner : List Char
  msg : List Char
  sep : List Char
deriving DecidableEq

def renderRec (r : GRec) : List Char :=
  marker ++ (r.lineDigits ++ ':' :: (r.colDigits ++ ':' ::
    (r.wInner ++ r.msg ++ r.sep)))

def renderRecs (rs : List GRec) : List Char := (rs.map renderRec).flatten

def allWS (l : List Char) : Prop := ∀ c ∈ l, jsWhitespace c = true

instance (l : List Char) : Decidable (allWS l) := by
  unfold allWS; infer_instance

/-- A well-formed record: nonempty digit runs for line and column, only
whitespace around and after the message, no `<` inside the message (the
capture group is `[^<]+`, so a `<` would end the record early), and at
least one non-whitespace character in the message (an all-whitespace
message at the very end of the stream is swallowed by `trim` and the
record no longer matches). -/
def recOK (r : GRec) : Prop :=
  r.lineDigits ≠ [] ∧ (∀ c ∈ r.lineDigits, isDig c = true) ∧
  r.colDigits ≠ [] ∧ (∀ c ∈ r.colDigits, isDig c = true) ∧
  allWS r.wInner ∧ allWS r.sep ∧
  (∀ c ∈ r.msg, c ≠ '<') ∧ (∃ c ∈ r.msg, jsWhitespace c = false)

instance (r : GRec) : Decidable (recOK r) := by
  unfold recOK allWS; infer_instance

/-- The record the parser is expected to emit: 0-based line and column,
and the message with its whitespace runs collapsed and trimmed (the
normalization of `parseAlloyErrors` runs before the capture, and
`m[3].trim()` after). -/
def expectedErr (r : GRec) : PositionedError :=
  { line := (digitsToNat r.lineDigits : Int) - 1
    col := (digitsToNat r.colDigits : Int) - 1
    message := String.mk (trimWS (collapseAux false r.msg)) }

/-- The whitespace-collapsed tail of a record (everything after its third
colon, separator included). -/
def recT (r : GRec) : List Char := collapseAux false (r.wInner ++ r.msg ++ r.sep)

/-- The whitespace-collapsed rendering of a record. -/
def collRec (r : GRec) : List Char :=
  marker ++ (r.lineDigits ++ ':' :: (r.colDigits ++ ':' :: recT r))

/-- The `inWS` flag of `collapseAux` after a list has been consumed. -/
def endState (b : Bool) (l : List Char) : Bool :=
  l.foldl (fun _ c => jsWhitespace c) b

/-! ## The scenario record of the spec -/

def apos : Char := Char.ofNat 39

def scenarioMsg : List Char :=
  "missing ".data ++ apos :: ",".data ++ apos :: " in expression list".data

def scenarioRec : GRec :=
  { lineDigits := "360".data, colDigits := "37".data, wInner := [' ']
    msg := scenarioMsg, sep := [] }

/-! # Proof development -/

/-! ## `takeWhile` / `dropWhile` plumbing -/

theorem takeWhile_append_all {p : Char → Bool} {a b : List Char}
    (h : ∀ c ∈ a, p c = true) :
    (a ++ b).takeWhile p = a ++ b.takeWhile p := by
  induction a with
  | nil => rfl
  | cons x xs ih =>
    simp only [List.cons_append, List.takeWhile_cons,
      h x (List.mem_cons_self x xs), if_true]
    rw [ih (fun c hc => h c (List.mem_cons_of_mem x hc))]

theorem dropWhile_append_all {p : Char → Bool} {a b : List Char}
    (h : ∀ c ∈ a, p c = true) :
    (a ++ b).dropWhile p = b.dropWhile p := by
  induction a with
  | nil => rfl
  | cons x xs ih =>
    simp only [List.cons_append, List.dropWhile_cons,
      h x (List.mem_cons_self x xs), if_true]
    exact ih (fun c hc => h c (List.mem_cons_of_mem x hc))

theorem takeWhile_all {p : Char → Bool} {l : List Char}
    (h : ∀ c ∈ l, p c = true) : l.takeWhile p = l := by
  have := takeWhile_append_all (b := []) h
  simpa using this

theorem dropWhile_all {p : Char → Bool} {l : List Char}
    (h : ∀ c ∈ l, p c = true) : l.dropWhile p = [] := by
  have := dropWhile_append_all (b := []) h
  simpa using this

theorem takeWhile_append_stop {p : Char → Bool} {a b : List Char} {c : Char}
    (ha : ∀ x ∈ a, p x = true) (hc : p c = false) :
    (a ++ c :: b).takeWhile p = a := by
  rw [takeWhile_append_all ha, List.takeWhile_cons, hc]
  simp

theorem dropWhile_append_stop {p : Char → Bool} {a b : List Char} {c : Char}
    (ha : ∀ x ∈ a, p x = true) (hc : p c = false) :
    (a ++ c :: b).dropWhile p = c :: b := by
  rw [dropWhile_append_all ha, List.dropWhile_cons, hc]
  simp

theorem dropWhile_ne_nil_of_exists {p : Char → Bool} {l : List Char}
    (h : ∃ c ∈ l, p c = false) : l.dropWhile p ≠ [] := by
  induction l with
  | nil => simp at h
  | cons x xs ih =>
    obtain ⟨c, hc, hpc⟩ := h
    rw [List.dropWhile_cons]
    rcases List.mem_cons.mp hc with rfl | hcx
    · rw [hpc]; simp
    · by_cases hx : p x = true
      · simpa [hx] using ih ⟨c, hcx, hpc⟩
      · simp [hx]

theorem dropWhile_head {p : Char → Bool} {l t : List Char} {c : Char}
    (h : l.dropWhile p = c :: t) : p c = false ∧ c ∈ l := by
  refine ⟨?_, ?_⟩
  · have := List.head?_dropWhile_not p l
    rw [h] at this
    simpa using this
  · exact (List.dropWhile_suffix p).sublist.mem (by rw [h]; exact List.mem_cons_self c t)

theorem dropWhile_idem {p : Char → Bool} (l : List Char) :
    (l.dropWhile p).dropWhile p = l.dropWhile p := by
  rcases h : l.dropWhile p with _ | ⟨c, t⟩
  · rfl
  · rw [List.dropWhile_cons, (dropWhile_head h).1]
    simp

theorem takeWhile_append_dropWhile (p : Char → Bool) (l : List Char) :
    l.takeWhile p ++ l.dropWhile p = l :=
  List.takeWhile_append_dropWhile p l

/-! ## `collapseAux` -/

theorem endState_nil (b : Bool) : endState b [] = b := rfl

theorem endState_cons (b : Bool) (c : Char) (l : List Char) :
    endState b (c :: l) = endState (jsWhitespace c) l := rfl

theorem endState_append (b : Bool) (a l : List Char) :
    endState b (a ++ l) = endState (endState b a) l := by
  induction a generalizing b with
  | nil => rfl
  | cons x xs ih => rw [List.cons_append, endState_cons, endState_cons, ih]

theorem endState_allWS {w : List Char} (hw : allWS w) (hne : w ≠ []) (b : Bool) :
    endState b w = true := by
  induction w generalizing b with
  | nil => exact absurd rfl hne
  | cons x xs ih =>
    rw [endState_cons]
    rcases xs with _ | ⟨y, ys⟩
    · rw [endState_nil]; exact hw x (List.mem_cons_self x [])
    · exact ih (fun c hc => hw c (List.mem_cons_of_mem x hc)) (by simp) _

theorem endState_last_not_ws {l : List Char} {c : Char} (b : Bool)
    (hc : jsWhitespace c = false) : endState b (l ++ [c]) = false := by
  rw [endState_append, endState_cons, endState_nil, hc]

theorem collapseAux_not_ws_cons {c : Char} (b : Bool) (l : List Char)
    (hc : jsWhitespace c = false) :
    collapseAux b (c :: l) = c :: collapseAux false l := by
  simp [collapseAux, hc]

theorem collapseAux_ws_cons_false {c : Char} (l : List Char)
    (hc : jsWhitespace c = true) :
    collapseAux false (c :: l) = ' ' :: collapseAux true l := by
  simp [collapseAux, hc]

theorem collapseAux_ws_cons_true {c : Char} (l : List Char)
    (hc : jsWhitespace c = true) :
    collapseAux true (c :: l) = collapseAux true l := by
  simp [collapseAux, hc]

theorem collapseAux_append (b : Bool) (a l : List Char) :
    collapseAux b (a ++ l) = collapseAux b a ++ collapseAux (endState b a) l := by
  induction a generalizing b with
  | nil => rfl
  | cons x xs ih =>
    rw [List.cons_append, endState_cons]
    by_cases hx : jsWhitespace x = true
    · cases b
      · rw [collapseAux_ws_cons_false _ hx, collapseAux_ws_cons_false _ hx,
          ih true, hx, List.cons_append]
      · rw [collapseAux_ws_cons_true _ hx, collapseAux_ws_cons_true _ hx,
          ih true, hx]
    · rw [Bool.not_eq_true] at hx
      rw [collapseAux_not_ws_cons b _ hx, collapseAux_not_ws_cons b _ hx,
        ih false, hx, List.cons_append]

theorem collapseAux_all_not_ws {a : List Char} (b : Bool)
    (h : ∀ c ∈ a, jsWhitespace c = false) : collapseAux b a = a := by
  induction a generalizing b with
  | nil => rfl
  | cons x xs ih =>
    rw [collapseAux_not_ws_cons b xs (h x (List.mem_cons_self x xs))]
    rw [ih false (fun c hc => h c (List.mem_cons_of_mem x hc))]

theorem collapseAux_allWS {w : List Char} (hw : allWS w) (hne : w ≠ []) :
    collapseAux false w = [' '] ∧ collapseAux true w = [] := by
  induction w with
  | nil => exact absurd rfl hne
  | cons x xs ih =>
    have hx := hw x (List.mem_cons_self x xs)
    rcases xs with _ | ⟨y, ys⟩
    · exact ⟨by simp [collapseAux, hx], by simp [collapseAux, hx]⟩
    · have ihr := ih (fun c hc => hw c (List.mem_cons_of_mem x hc)) (by simp)
      constructor
      · rw [collapseAux_ws_cons_false _ hx, ihr.2]
      · rw [collapseAux_ws_cons_true _ hx, ihr.2]

theorem mem_collapseAux {b : Bool} {l : List Char} {c : Char}
    (h : c ∈ collapseAux b l) : c = ' ' ∨ c ∈ l := by
  induction l generalizing b with
  | nil => simp [collapseAux] at h
  | cons x xs ih =>
    by_cases hx : jsWhitespace x = true
    · by_cases hb : b
      · simp only [collapseAux, hx, if_true, hb] at h
        rcases ih h with h' | h'
        · exact Or.inl h'
        · exact Or.inr (List.mem_cons_of_mem x h')
      · simp only [collapseAux, hx, if_true, hb, Bool.false_eq_true, if_false] at h
        rcases List.mem_cons.mp h with rfl | h'
        · exact Or.inl rfl
        · rcases ih h' with h'' | h''
          · exact Or.inl h''
          · exact Or.inr (List.mem_cons_of_mem x h'')
    · rw [Bool.not_eq_true] at hx
      simp only [collapseAux, hx, Bool.false_eq_true, if_false] at h
      rcases List.mem_cons.mp h with rfl | h'
      · exact Or.inr (List.mem_cons_self c xs)
      · rcases ih h' with h'' | h''
        · exact Or.inl h''
        · exact Or.inr (List.mem_cons_of_mem x h'')

theorem exists_not_ws_collapseAux {l : List Char} (b : Bool)
    (h : ∃ c ∈ l, jsWhitespace c = false) :
    ∃ c ∈ collapseAux b l, jsWhitespace c = false := by
  induction l generalizing b with
  | nil => simp at h
  | cons x xs ih =>
    obtain ⟨c, hc, hpc⟩ := h
    by_cases hx : jsWhitespace x = true
    · have hcx : c ∈ xs := by
        rcases List.mem_cons.mp hc with rfl | h'
        · rw [hx] at hpc; cases hpc
        · exact h'
      obtain ⟨c', hc', hpc'⟩ := ih true ⟨c, hcx, hpc⟩
      refine ⟨c', ?_, hpc'⟩
      cases b
      · rw [collapseAux_ws_cons_false _ hx]
        exact List.mem_cons_of_mem ' ' hc'
      · rw [collapseAux_ws_cons_true _ hx]
        exact hc'
    · rw [Bool.not_eq_true] at hx
      refine ⟨x, ?_, hx⟩
      rw [collapseAux_not_ws_cons b xs hx]
      exact List.mem_cons_self x _

theorem ws_space : jsWhitespace ' ' = true := by decide

theorem dropWS_collapseAux_state (l : List Char) (b b' : Bool) :
    dropWS (collapseAux b l) = dropWS (collapseAux b' l) := by
  induction l with
  | nil => rfl
  | cons x xs ih =>
    by_cases hx : jsWhitespace x = true
    · have key : ∀ b'' : Bool,
          dropWS (collapseAux b'' (x :: xs)) = dropWS (collapseAux true xs) := by
        intro b''
        cases b''
        · rw [collapseAux_ws_cons_false _ hx]
          simp [dropWS, List.dropWhile_cons, ws_space]
        · rw [collapseAux_ws_cons_true _ hx]
      rw [key b, key b']
    · rw [Bool.not_eq_true] at hx
      rw [collapseAux_not_ws_cons b xs hx, collapseAux_not_ws_cons b' xs hx]

/-! ## `trim` -/

theorem dropWhile_append_ne {p : Char → Bool} {u v : List Char}
    (h : u.dropWhile p ≠ []) : (u ++ v).dropWhile p = u.dropWhile p ++ v := by
  rw [List.dropWhile_append, if_neg]
  simpa using h

theorem dropEndWS_append_allWS {x t : List Char} (ht : allWS t) :
    dropEndWS (x ++ t) = dropEndWS x := by
  unfold dropEndWS
  rw [List.reverse_append, dropWhile_append_all]
  intro c hc
  exact ht c (List.mem_reverse.mp hc)

theorem dropEndWS_append_left {a b : List Char}
    (h : ∃ c ∈ b, jsWhitespace c = false) :
    dropEndWS (a ++ b) = a ++ dropEndWS b := by
  unfold dropEndWS
  rw [List.reverse_append, dropWhile_append_ne, List.reverse_append,
    List.reverse_reverse]
  exact dropWhile_ne_nil_of_exists ⟨_, List.mem_reverse.mpr
    h.choose_spec.1, h.choose_spec.2⟩

theorem dropEndWS_decomp (l : List Char) :
    l = dropEndWS l ++ (l.reverse.takeWhile jsWhitespace).reverse ∧
    allWS (l.reverse.takeWhile jsWhitespace).reverse := by
  constructor
  · unfold dropEndWS
    rw [← List.reverse_append, takeWhile_append_dropWhile, List.reverse_reverse]
  · intro c hc
    exact List.mem_takeWhile_imp (List.mem_reverse.mp hc)

theorem mem_dropEndWS {l : List Char} {c : Char} (h : c ∈ dropEndWS l) :
    c ∈ l := by
  have := (dropEndWS_decomp l).1
  rw [this]
  exact List.mem_append_left _ h

theorem exists_not_ws_dropEndWS {l : List Char}
    (h : ∃ c ∈ l, jsWhitespace c = false) :
    ∃ c ∈ dropEndWS l, jsWhitespace c = false := by
  obtain ⟨c, hc, hpc⟩ := h
  obtain ⟨hdec, hws⟩ := dropEndWS_decomp l
  rw [hdec] at hc
  rcases List.mem_append.mp hc with h' | h'
  · exact ⟨c, h', hpc⟩
  · rw [hws c h'] at hpc; cases hpc

theorem dropEndWS_idem (l : List Char) :
    dropEndWS (dropEndWS l) = dropEndWS l := by
  unfold dropEndWS
  rw [List.reverse_reverse, dropWhile_idem]

theorem trimWS_dropWS (l : List Char) : trimWS (dropWS l) = trimWS l := by
  unfold trimWS dropWS
  rw [dropWhile_idem]

theorem dropWS_dropEndWS_comm {l : List Char}
    (h : ∃ c ∈ l, jsWhitespace c = false) :
    dropWS (dropEndWS l) = dropEndWS (dropWS l) := by
  have hsplit := takeWhile_append_dropWhile jsWhitespace l
  have htw : allWS (l.takeWhile jsWhitespace) := fun c hc => List.mem_takeWhile_imp hc
  have hdw : ∃ c ∈ l.dropWhile jsWhitespace, jsWhitespace c = false := by
    obtain ⟨c, hc, hpc⟩ := h
    rw [← hsplit] at hc
    rcases List.mem_append.mp hc with h' | h'
    · rw [htw c h'] at hpc; cases hpc
    · exact ⟨c, h', hpc⟩
  unfold dropWS
  conv_lhs => rw [← hsplit]
  rw [dropEndWS_append_left hdw,
    dropWhile_append_all htw]
  rcases hd : l.dropWhile jsWhitespace with _ | ⟨c, t⟩
  · rw [hd] at hdw; simp at hdw
  · have hc := (dropWhile_head hd).1
    have hdw' : ∃ x ∈ (c :: t), jsWhitespace x = false := hd ▸ hdw
    rcases he : dropEndWS (c :: t) with _ | ⟨c', u⟩
    · exfalso
      obtain ⟨c'', hc'', hpc''⟩ := exists_not_ws_dropEndWS hdw'
      rw [he] at hc''
      simp at hc''
    · have hdec := (dropEndWS_decomp (c :: t)).1
      rw [he] at hdec
      simp only [List.cons_append] at hdec
      injection hdec with h1 _
      subst h1
      rw [List.dropWhile_cons, hc]
      simp

theorem trimWS_dropEndWS {l : List Char}
    (h : ∃ c ∈ l, jsWhitespace c = false) :
    trimWS (dropEndWS l) = trimWS l := by
  unfold trimWS
  rw [dropWS_dropEndWS_comm h, dropEndWS_idem]

/-- Whitespace padding around a message is invisible after normalization
and per-message `trim`: collapsing then trimming `w ++ m ++ s` (with `w`,
`s` whitespace) is collapsing then trimming `m`. -/
theorem trim_collapse_strip {w m s : List Char} (hw : allWS w) (hs : allWS s)
    (hm : ∃ c ∈ m, jsWhitespace c = false) :
    trimWS (collapseAux false (w ++ m ++ s)) =
      trimWS (collapseAux false m) := by
  have hC : ∃ c ∈ collapseAux false m, jsWhitespace c = false :=
    exists_not_ws_collapseAux false hm
  have hS : allWS (collapseAux (endState false m) s) := by
    intro c hc
    rcases mem_collapseAux hc with rfl | h'
    · exact ws_space
    · exact hs c h'
  have step3 : collapseAux false (m ++ s) =
      collapseAux false m ++ collapseAux (endState false m) s :=
    collapseAux_append false m s
  have hfront : dropWS (collapseAux false m ++ collapseAux (endState false m) s)
      = dropWS (collapseAux false m) ++ collapseAux (endState false m) s :=
    dropWhile_append_ne (dropWhile_ne_nil_of_exists hC)
  have step4 : trimWS (collapseAux false (m ++ s)) =
      trimWS (collapseAux false m) := by
    rw [step3]
    unfold trimWS
    rw [hfront]
    exact dropEndWS_append_allWS hS
  rw [List.append_assoc]
  by_cases hwe : w = []
  · rw [hwe, List.nil_append]
    exact step4
  · rw [collapseAux_append false w (m ++ s),
      (collapseAux_allWS hw hwe).1,
      endState_allWS hw hwe, List.singleton_append]
    have hsp : trimWS (' ' :: collapseAux true (m ++ s)) =
        trimWS (collapseAux true (m ++ s)) := by
      unfold trimWS dropWS
      rw [List.dropWhile_cons, ws_space]
      simp
    rw [hsp, ← trimWS_dropWS (collapseAux true (m ++ s)),
      dropWS_collapseAux_state (m ++ s) true false,
      trimWS_dropWS, step4]

/-! ## Character-class facts -/

theorem isDig_not_ws {c : Char} (h : isDig c = true) : jsWhitespace c = false := by
  simp only [isDig, Bool.and_eq_true, decide_eq_true_eq] at h
  simp only [jsWhitespace, Bool.or_eq_false_iff, Bool.and_eq_false_iff,
    decide_eq_false_iff_not]
  omega

theorem isDig_ne_lt {c : Char} (h : isDig c = true) : c ≠ '<' := by
  intro hc
  subst hc
  revert h
  decide

theorem isDig_colon : isDig ':' = false := by decide

theorem not_ws_colon : jsWhitespace ':' = false := by decide

theorem not_ws_lt : jsWhitespace '<' = false := by decide

/-! ## The regex matcher on a well-formed record -/

theorem matchTail_eq {d1 d2 U V : List Char}
    (hd1 : d1 ≠ []) (hd1d : ∀ c ∈ d1, isDig c = true)
    (hd2 : d2 ≠ []) (hd2d : ∀ c ∈ d2, isDig c = true)
    (hU : ∀ c ∈ U, c ≠ '<')
    (hUex : ∃ c ∈ U, jsWhitespace c = false)
    (hV : V = [] ∨ ∃ V', V = '<' :: V') :
    matchTail (d1 ++ ':' :: (d2 ++ ':' :: (U ++ V))) =
      some (d1, d2, dropWS U, V) := by
  have hd1' : (d1 ++ ':' :: (d2 ++ ':' :: (U ++ V))).takeWhile isDig = d1 :=
    takeWhile_append_stop hd1d isDig_colon
  have hd1'' : (d1 ++ ':' :: (d2 ++ ':' :: (U ++ V))).dropWhile isDig
      = ':' :: (d2 ++ ':' :: (U ++ V)) :=
    dropWhile_append_stop hd1d isDig_colon
  have hd2' : (d2 ++ ':' :: (U ++ V)).takeWhile isDig = d2 :=
    takeWhile_append_stop hd2d isDig_colon
  have hd2'' : (d2 ++ ':' :: (U ++ V)).dropWhile isDig = ':' :: (U ++ V) :=
    dropWhile_append_stop hd2d isDig_colon
  have hUne : U.dropWhile jsWhitespace ≠ [] := dropWhile_ne_nil_of_exists hUex
  have ht : (U ++ V).dropWhile jsWhitespace = U.dropWhile jsWhitespace ++ V :=
    dropWhile_append_ne hUne
  rcases hdwU : U.dropWhile jsWhitespace with _ | ⟨c, rest⟩
  · exact absurd hdwU hUne
  · have hc := dropWhile_head hdwU
    have hcne : c ≠ '<' := hU c hc.2
    have hrest : ∀ x ∈ rest, x ≠ '<' := by
      intro x hx
      exact hU x ((List.dropWhile_suffix jsWhitespace).sublist.mem
        (by rw [hdwU]; exact List.mem_cons_of_mem c hx))
    have hg3 : (c :: (rest ++ V)).takeWhile (fun x => decide (x ≠ '<'))
        = c :: rest := by
      rcases hV with rfl | ⟨V', rfl⟩
      · rw [List.append_nil]
        exact takeWhile_all (by
          intro x hx
          rcases List.mem_cons.mp hx with rfl | hx'
          · simp [hcne]
          · simp [hrest x hx'])
      · rw [show c :: (rest ++ '<' :: V') = (c :: rest) ++ '<' :: V' from rfl]
        exact takeWhile_append_stop (by
          intro x hx
          rcases List.mem_cons.mp hx with rfl | hx'
          · simp [hcne]
          · simp [hrest x hx']) (by simp)
    have hg4 : (c :: (rest ++ V)).dropWhile (fun x => decide (x ≠ '<')) = V := by
      rcases hV with rfl | ⟨V', rfl⟩
      · rw [List.append_nil]
        exact dropWhile_all (by
          intro x hx
          rcases List.mem_cons.mp hx with rfl | hx'
          · simp [hcne]
          · simp [hrest x hx'])
      · rw [show c :: (rest ++ '<' :: V') = (c :: rest) ++ '<' :: V' from rfl]
        exact dropWhile_append_stop (by
          intro x hx
          rcases List.mem_cons.mp hx with rfl | hx'
          · simp [hcne]
          · simp [hrest x hx']) (by simp)
    unfold matchTail
    rw [hd1', hd1'']
    simp only [if_neg hd1]
    rw [hd2', hd2'']
    simp only [if_neg hd2]
    rw [ht, hdwU]
    simp only [List.cons_append, if_neg hcne]
    rw [hg3, hg4, show dropWS U = c :: rest from hdwU]

theorem take_eight_marker (X : List Char) : (marker ++ X).take 8 = marker := rfl

theorem drop_eight_marker (X : List Char) : (marker ++ X).drop 8 = X := rfl

theorem matchAt_marker (X : List Char) :
    matchAt (marker ++ X) = matchTail X := by
  unfold matchAt
  rw [take_eight_marker, drop_eight_marker, if_pos rfl]

/-! ## Consumed length of a successful match -/

theorem matchTail_length {rest d1 d2 g3 r : List Char}
    (h : matchTail rest = some (d1, d2, g3, r)) : r.length ≤ rest.length := by
  have len1 : (rest.dropWhile isDig).length ≤ rest.length :=
    (List.dropWhile_suffix isDig).sublist.length_le
  simp only [matchTail] at h
  split at h
  · cases h
  · split at h
    · next r2 heq =>
      have len2 : r2.length < rest.length := by
        rw [heq] at len1
        simp at len1
        omega
      have len3 : (r2.dropWhile isDig).length ≤ r2.length :=
        (List.dropWhile_suffix isDig).sublist.length_le
      split at h
      · cases h
      · split at h
        · next r4 heq2 =>
          have len4 : r4.length < r2.length := by
            rw [heq2] at len3
            simp at len3
            omega
          have len5 : (r4.dropWhile jsWhitespace).length ≤ r4.length :=
            (List.dropWhile_suffix jsWhitespace).sublist.length_le
          split at h
          · next heq3 =>
            split at h
            · cases h
            · cases h
              simp
          · next c t' heq3 =>
            have lent : (c :: t').length ≤ r4.length := by
              rw [← heq3]
              exact len5
            have lend : ((c :: t').dropWhile (fun x => decide (x ≠ '<'))).length
                ≤ (c :: t').length :=
              (List.dropWhile_suffix _).sublist.length_le
            split at h
            · split at h
              · cases h
              · cases h
                simp only [List.length_cons] at lent ⊢
                omega
            · cases h
              simp only [List.length_cons] at lent lend ⊢
              omega
        · cases h
    · cases h

theorem matchAt_length {l d1 d2 g3 r : List Char}
    (h : matchAt l = some (d1, d2, g3, r)) : r.length < l.length := by
  unfold matchAt at h
  split at h
  · next hm =>
    have h8 : 8 ≤ l.length := by
      have := congrArg List.length hm
      simp [List.length_take, marker] at this
      omega
    have := matchTail_length h
    simp [List.length_drop] at this
    omega
  · cases h

/-! ## Fuel adequacy of the scanner -/

theorem scanF_nil (f : Nat) : scanF f [] = [] := by
  cases f <;> rfl

theorem scanF_congr : ∀ f g : Nat, ∀ l : List Char,
    l.length ≤ f → l.length ≤ g → scanF f l = scanF g l := by
  intro f
  induction f with
  | zero =>
    intro g l hf _
    have : l = [] := List.length_eq_zero.mp (Nat.le_zero.mp hf)
    subst this
    rw [scanF_nil, scanF_nil]
  | succ f ih =>
    intro g l hf hg
    rcases l with _ | ⟨c, cs⟩
    · rw [scanF_nil, scanF_nil]
    · rcases g with _ | g'
      · simp at hg
      · show scanF (f + 1) (c :: cs) = scanF (g' + 1) (c :: cs)
        rcases hm : matchAt (c :: cs) with _ | ⟨d1, d2, g3, rest⟩
        · simp only [scanF, hm]
          exact ih g' cs (by simpa using hf) (by simpa using hg)
        · have hlt := matchAt_length hm
          simp only [List.length_cons] at hlt
          simp only [scanF, hm]
          rw [ih g' rest
            (by simp only [List.length_cons] at hf; omega)
            (by simp only [List.length_cons] at hg; omega)]

theorem scan_match {l d1 d2 g3 rest : List Char}
    (h : matchAt l = some (d1, d2, g3, rest)) :
    scan l = (d1, d2, g3) :: scan rest := by
  rcases l with _ | ⟨c, cs⟩
  · cases h
  · have hlt := matchAt_length h
    simp only [List.length_cons] at hlt
    show scanF (c :: cs).length (c :: cs) = _
    simp only [List.length_cons, scanF, h]
    rw [scanF_congr cs.length rest.length rest (by omega) le_rfl]
    rfl

theorem scan_no_match {c : Char} {cs : List Char}
    (h : matchAt (c :: cs) = none) : scan (c :: cs) = scan cs := by
  show scanF (c :: cs).length (c :: cs) = _
  simp only [List.length_cons, scanF, h]
  rfl

/-! ## Collapsing a rendered record stream -/

theorem marker_not_ws : ∀ c ∈ marker, jsWhitespace c = false := by decide

theorem ws_ne_lt {c : Char} (h : jsWhitespace c = true) : c ≠ '<' := by
  intro hc
  subst hc
  rw [not_ws_lt] at h
  cases h

theorem endState_marker (b : Bool) : endState b marker = false := by
  cases b <;> decide

theorem collapseAux_marker_append (b : Bool) (X : List Char) :
    collapseAux b (marker ++ X) = marker ++ collapseAux false X := by
  rw [collapseAux_append b marker X, collapseAux_all_not_ws b marker_not_ws,
    endState_marker]

theorem dropWS_marker_append (X : List Char) :
    dropWS (marker ++ X) = marker ++ X := by
  show List.dropWhile jsWhitespace (marker ++ X) = marker ++ X
  rw [show marker ++ X = '<' :: (['s', 't', 'd', 'i', 'n', '>', ':'] ++ X)
    from rfl]
  rw [List.dropWhile_cons, not_ws_lt]
  simp

theorem collapse_prefix_nonws {a : List Char}
    (ha : ∀ c ∈ a, jsWhitespace c = false) {c : Char}
    (hc : jsWhitespace c = false) (Y : List Char) (b : Bool) :
    collapseAux b (a ++ c :: Y) = a ++ c :: collapseAux false Y := by
  rw [collapseAux_append b a (c :: Y), collapseAux_all_not_ws b ha,
    collapseAux_not_ws_cons _ _ hc]

theorem collapse_renderRec {r : GRec} (hok : recOK r) :
    collapseAux false (renderRec r) = collRec r := by
  obtain ⟨hld, hldd, hcd, hcdd, hw, hs, hmlt, hmex⟩ := hok
  have hldnw : ∀ c ∈ r.lineDigits, jsWhitespace c = false :=
    fun c hc => isDig_not_ws (hldd c hc)
  have hcdnw : ∀ c ∈ r.colDigits, jsWhitespace c = false :=
    fun c hc => isDig_not_ws (hcdd c hc)
  unfold renderRec collRec recT
  rw [collapseAux_marker_append,
    collapse_prefix_nonws hldnw not_ws_colon,
    collapse_prefix_nonws hcdnw not_ws_colon]

theorem renderRecs_cons (r : GRec) (rs : List GRec) :
    renderRecs (r :: rs) = renderRec r ++ renderRecs rs := by
  simp [renderRecs]

theorem renderRecs_marker (r : GRec) (rs : List GRec) :
    renderRecs (r :: rs) = marker ++
      ((r.lineDigits ++ ':' :: (r.colDigits ++ ':' ::
        (r.wInner ++ r.msg ++ r.sep))) ++ renderRecs rs) := by
  rw [renderRecs_cons]
  unfold renderRec
  rw [List.append_assoc]

theorem collapse_renderRecs (rs : List GRec) (hok : ∀ r ∈ rs, recOK r) :
    collapseAux false (renderRecs rs) = (rs.map collRec).flatten := by
  induction rs with
  | nil => rfl
  | cons r rs' ih =>
    rw [renderRecs_cons, collapseAux_append,
      collapse_renderRec (hok r (List.mem_cons_self r rs'))]
    have htail : collapseAux (endState false (renderRec r)) (renderRecs rs')
        = collapseAux false (renderRecs rs') := by
      rcases rs' with _ | ⟨r', rs''⟩
      · rfl
      · rw [renderRecs_marker r' rs'', collapseAux_marker_append,
          collapseAux_marker_append]
    rw [htail, ih (fun x hx => hok x (List.mem_cons_of_mem r hx))]
    simp

/-! ## Normalization of the full stderr stream -/

theorem flatten_collRec_marker (r : GRec) (rs : List GRec) :
    ((r :: rs).map collRec).flatten = marker ++
      ((r.lineDigits ++ ':' :: (r.colDigits ++ ':' :: recT r)) ++
        (rs.map collRec).flatten) := by
  simp only [List.map_cons, List.flatten_cons]
  unfold collRec
  rw [List.append_assoc]

theorem normalize_render {w0 : List Char} (hw0 : allWS w0)
    {rs : List GRec} (hne : rs ≠ []) (hok : ∀ r ∈ rs, recOK r) :
    trimWS (collapseAux false (w0 ++ renderRecs rs)) =
      dropEndWS ((rs.map collRec).flatten) := by
  obtain ⟨r, rs', rfl⟩ : ∃ r rs', rs = r :: rs' := by
    rcases rs with _ | ⟨r, rs'⟩
    · exact absurd rfl hne
    · exact ⟨r, rs', rfl⟩
  have hcoll := collapse_renderRecs (r :: rs') hok
  by_cases hw0e : w0 = []
  · rw [hw0e, List.nil_append, hcoll]
    unfold trimWS
    rw [flatten_collRec_marker, dropWS_marker_append]
  · rw [collapseAux_append false w0, (collapseAux_allWS hw0 hw0e).1,
      endState_allWS hw0 hw0e, List.singleton_append]
    rw [renderRecs_marker r rs', collapseAux_marker_append,
      ← collapseAux_marker_append false, ← renderRecs_marker r rs', hcoll]
    unfold trimWS
    rw [flatten_collRec_marker]
    have hsp : dropWS (' ' :: (marker ++
        ((r.lineDigits ++ ':' :: (r.colDigits ++ ':' :: recT r)) ++
          (rs'.map collRec).flatten)))
        = dropWS (marker ++
        ((r.lineDigits ++ ':' :: (r.colDigits ++ ':' :: recT r)) ++
          (rs'.map collRec).flatten)) := by
      show List.dropWhile jsWhitespace (' ' :: _) = _
      rw [List.dropWhile_cons, ws_space]
      simp [dropWS]
    rw [hsp, dropWS_marker_append]

/-! ## The scanner on a collapsed record stream -/

theorem recT_exists_not_ws {r : GRec} (hok : recOK r) :
    ∃ c ∈ recT r, jsWhitespace c = false := by
  obtain ⟨-, -, -, -, -, -, -, hmex⟩ := hok
  apply exists_not_ws_collapseAux
  obtain ⟨c, hc, hpc⟩ := hmex
  exact ⟨c, List.mem_append_left _ (List.mem_append_right _ hc), hpc⟩

theorem recT_ne_lt {r : GRec} (hok : recOK r) : ∀ c ∈ recT r, c ≠ '<' := by
  obtain ⟨-, -, -, -, hw, hs, hmlt, -⟩ := hok
  intro c hc
  rcases mem_collapseAux hc with rfl | hc'
  · decide
  · rcases List.mem_append.mp hc' with hc'' | hc''
    · rcases List.mem_append.mp hc'' with h3 | h3
      · exact ws_ne_lt (hw c h3)
      · exact hmlt c h3
    · exact ws_ne_lt (hs c hc'')

theorem matchAt_collRec {r : GRec} (hok : recOK r) {V : List Char}
    (hV : V = [] ∨ ∃ V', V = '<' :: V') :
    matchAt (collRec r ++ V) =
      some (r.lineDigits, r.colDigits, dropWS (recT r), V) := by
  obtain ⟨hld, hldd, hcd, hcdd, -, -, -, -⟩ := id hok
  have hshape : collRec r ++ V = marker ++
      (r.lineDigits ++ ':' :: (r.colDigits ++ ':' :: (recT r ++ V))) := by
    unfold collRec
    simp [List.append_assoc]
  rw [hshape, matchAt_marker]
  exact matchTail_eq hld hldd hcd hcdd (recT_ne_lt hok) (recT_exists_not_ws hok) hV

theorem scan_collRecs : ∀ rs : List GRec, (∀ r ∈ rs, recOK r) →
    (scan (dropEndWS ((rs.map collRec).flatten))).map mkErr
      = rs.map (fun r => mkErr (r.lineDigits, r.colDigits, recT r)) := by
  intro rs
  induction rs with
  | nil => intro _; rfl
  | cons r rs' ih =>
    intro hok
    have hokr := hok r (List.mem_cons_self r rs')
    obtain ⟨hld, hldd, hcd, hcdd, -, -, -, -⟩ := id hokr
    rcases rs' with _ | ⟨r2, rs3⟩
    · simp only [List.map_cons, List.map_nil, List.flatten_cons,
        List.flatten_nil, List.append_nil]
      have hsplit : collRec r =
          (marker ++ (r.lineDigits ++ ':' :: (r.colDigits ++ [':']))) ++ recT r := by
        unfold collRec
        simp [List.append_assoc]
      rw [hsplit, dropEndWS_append_left (recT_exists_not_ws hokr)]
      have hshape2 : (marker ++ (r.lineDigits ++ ':' :: (r.colDigits ++ [':'])))
            ++ dropEndWS (recT r)
          = marker ++ (r.lineDigits ++ ':' ::
            (r.colDigits ++ ':' :: (dropEndWS (recT r) ++ []))) := by
        simp [List.append_assoc]
      have hmatch : matchAt ((marker ++ (r.lineDigits ++ ':' ::
            (r.colDigits ++ [':']))) ++ dropEndWS (recT r))
          = some (r.lineDigits, r.colDigits,
              dropWS (dropEndWS (recT r)), []) := by
        rw [hshape2, matchAt_marker]
        exact matchTail_eq hld hldd hcd hcdd
          (fun c hc => recT_ne_lt hokr c (mem_dropEndWS hc))
          (exists_not_ws_dropEndWS (recT_exists_not_ws hokr)) (Or.inl rfl)
      rw [scan_match hmatch]
      have hmsg : trimWS (dropWS (dropEndWS (recT r))) = trimWS (recT r) := by
        rw [trimWS_dropWS, trimWS_dropEndWS (recT_exists_not_ws hokr)]
      simp [mkErr, hmsg, scan, scanF_nil]
    · simp only [List.map_cons, List.flatten_cons]
      have hne' : ∃ c ∈ collRec r2 ++ ((rs3.map collRec)).flatten,
          jsWhitespace c = false := by
        refine ⟨'<', ?_, not_ws_lt⟩
        apply List.mem_append_left
        unfold collRec
        apply List.mem_append_left
        simp [marker]
      rw [dropEndWS_append_left hne']
      have hVshape : ∃ V', dropEndWS (collRec r2 ++ (rs3.map collRec).flatten)
          = '<' :: V' := by
        have hflat : collRec r2 ++ (rs3.map collRec).flatten
            = ((r2 :: rs3).map collRec).flatten := by
          simp
        rw [hflat, flatten_collRec_marker]
        have htex : ∃ c ∈ (r2.lineDigits ++ ':' ::
            (r2.colDigits ++ ':' :: recT r2)) ++ (rs3.map collRec).flatten,
            jsWhitespace c = false :=
          ⟨':', List.mem_append_left _
            (List.mem_append_right _ (List.mem_cons_self _ _)), not_ws_colon⟩
        rw [dropEndWS_append_left htex]
        exact ⟨_, rfl⟩
      have hmatch := matchAt_collRec hokr (Or.inr hVshape)
      rw [scan_match hmatch, List.map_cons]
      have htail : collRec r2 ++ (rs3.map collRec).flatten
          = ((r2 :: rs3).map collRec).flatten := by
        simp
      rw [htail, ih (fun x hx => hok x (List.mem_cons_of_mem r hx))]
      simp [mkErr, trimWS_dropWS]

/-! ## Claim C1 -/

/-- C1: for every stderr string consisting of one or more records of the
form `<stdin>:L:C: msg` (optional leading whitespace, any whitespace runs
inside and between records, `L` and `C` decimal digit runs denoting 1-based
positions, `msg` free text with no `<` and at least one non-whitespace
character), `parseAlloyErrors` returns exactly one `PositionedError` per
record, in input order, with `line = L - 1`, `col = C - 1`, and message the
captured text with whitespace runs collapsed and leading/trailing
whitespace trimmed. -/
theorem parseAlloyErrors_records (w0 : List Char) (rs : List GRec)
    (hw0 : allWS w0) (hne : rs ≠ []) (hok : ∀ r ∈ rs, recOK r)
    (hL : ∀ r ∈ rs, 1 ≤ digitsToNat r.lineDigits)
    (hC : ∀ r ∈ rs, 1 ≤ digitsToNat r.colDigits) :
    parseAlloyErrors (String.mk (w0 ++ renderRecs rs)) = rs.map expectedErr := by
  show parseAlloyErrorsL (w0 ++ renderRecs rs) = _
  have hinput : w0 ++ renderRecs rs ≠ [] := by
    obtain ⟨r, rs', rfl⟩ : ∃ r rs', rs = r :: rs' := by
      rcases rs with _ | ⟨r, rs'⟩
      · exact absurd rfl hne
      · exact ⟨r, rs', rfl⟩
    rw [renderRecs_marker]
    simp [marker]
  unfold parseAlloyErrorsL
  rw [if_neg hinput, normalize_render hw0 hne hok, scan_collRecs rs hok]
  apply List.map_congr_left
  intro r hr
  obtain ⟨-, -, -, -, hw, hs, -, hmex⟩ := id (hok r hr)
  have hmsg : trimWS (recT r) = trimWS (collapseAux false r.msg) :=
    trim_collapse_strip hw hs hmex
  have hLr := hL r hr
  have hCr := hC r hr
  have hLi : (0 : Int) ≤ (digitsToNat r.lineDigits : Int) - 1 := by omega
  have hCi : (0 : Int) ≤ (digitsToNat r.colDigits : Int) - 1 := by omega
  simp only [mkErr, expectedErr, PositionedError.mk.injEq]
  exact ⟨max_eq_right hLi, max_eq_right hCi, by rw [hmsg]⟩

/-- Witness for C1: the scenario input
`<stdin>:360:37: missing ',' in expression list` (built from `scenarioRec`;
the message's apostrophes are `apos`) yields exactly
`[{line := 359, col := 36, message := "missing ',' in expression list"}]`. -/
theorem parseAlloyErrors_records_witness :
    allWS ([] : List Char) ∧ ([scenarioRec] : List GRec) ≠ [] ∧
    (∀ r ∈ [scenarioRec], recOK r) ∧
    (∀ r ∈ [scenarioRec], 1 ≤ digitsToNat r.lineDigits) ∧
    (∀ r ∈ [scenarioRec], 1 ≤ digitsToNat r.colDigits) ∧
    parseAlloyErrors (String.mk ([] ++ renderRecs [scenarioRec]))
      = [{ line := 359, col := 36, message := String.mk scenarioMsg }] :=
  ⟨by decide, by decide, by decide, by decide, by decide, by
    rw [parseAlloyErrors_records [] [scenarioRec] (by decide) (by decide)
      (by decide) (by decide) (by decide)]
    decide⟩

/-! ## Claim C10 -/

/-- C10: every record emitted by `parseAlloyErrors`, on any input, has
`line ≥ 0` and `col ≥ 0` — the loop body clamps both coordinates with
`Math.max(0, n - 1)`. -/
theorem parseAlloyErrors_nonneg (s : String) (e : PositionedError)
    (he : e ∈ parseAlloyErrors s) : 0 ≤ e.line ∧ 0 ≤ e.col := by
  unfold parseAlloyErrors parseAlloyErrorsL at he
  split at he
  · cases he
  · obtain ⟨g, hg, rfl⟩ := List.mem_map.mp he
    exact ⟨le_max_left 0 _, le_max_left 0 _⟩

/-- Witness for C10: the out-of-grammar record `<stdin>:0:0: msg` is
emitted at position `(0, 0)` rather than `(-1, -1)`. -/
theorem parseAlloyErrors_nonneg_witness :
    parseAlloyErrors "<stdin>:0:0: msg"
      = [{ line := 0, col := 0, message := "msg" }] ∧
    (0 : Int) ≤ ({ line := 0, col := 0, message := "msg" }
      : PositionedError).line ∧
    (0 : Int) ≤ ({ line := 0, col := 0, message := "msg" }
      : PositionedError).col :=
  ⟨by decide, (parseAlloyErrors_nonneg "<stdin>:0:0: msg" _ (by decide)).1,
   (parseAlloyErrors_nonneg "<stdin>:0:0: msg" _ (by decide)).2⟩

/-! ## Association-list and scheduler plumbing -/

theorem lookup_setKey_self {α : Type} (k : DocId) (v : α)
    (m : List (DocId × α)) : (setKey k v m).lookup k = some v := by
  unfold setKey
  simp [List.lookup]

theorem lookup_eraseKey_self {α : Type} (k : DocId) (m : List (DocId × α)) :
    (eraseKey k m).lookup k = none := by
  induction m with
  | nil => rfl
  | cons p m' ih =>
    unfold eraseKey at ih ⊢
    rw [List.filter_cons]
    by_cases hp : p.1 = k
    · simp only [hp]
      simp [ih]
    · have : (p.1 != k) = true := by simpa using hp
      rw [this]
      simp only [if_true]
      rcases p with ⟨a, b⟩
      simp only at hp
      rw [List.lookup_cons]
      have : (k == a) = false := by
        simp [Ne.symm hp]
      rw [this]
      simpa using ih

theorem count_eraseKey_self {α : Type} (k : DocId) (m : List (DocId × α)) :
    (((eraseKey k m).map Prod.fst).count k) = 0 := by
  rw [List.count_eq_zero]
  intro hmem
  obtain ⟨p, hp, hpk⟩ := List.mem_map.mp hmem
  have := List.of_mem_filter hp
  rw [hpk] at this
  simp at this

theorem count_eraseKey_le {α : Type} (k d : DocId) (m : List (DocId × α)) :
    (((eraseKey k m).map Prod.fst).count d) ≤ ((m.map Prod.fst).count d) :=
  ((List.filter_sublist m).map Prod.fst).count_le d

/-- The background machine never calls `showErrorMessage`: every scheduler
transition leaves the popup list unchanged. -/
theorem step_popups (e : Ev) (s : RiverState) : (step e s).popups = s.popups := by
  cases e with
  | schedule d => rfl
  | fire d t writeOk =>
    show (timerFire d t writeOk s).popups = s.popups
    unfold timerFire
    split
    · split <;> rfl
    · rfl
  | procClose d tag code stderr =>
    show (procCloseEv d tag code stderr s).popups = s.popups
    unfold procCloseEv
    split <;> rfl
  | closeDoc d => rfl

theorem validateOnClose_nonzero {code : Option Int} (stderr : String)
    (hc : code ≠ some 0) :
    validateOnClose code stderr = parseAlloyErrors stderr := by
  unfold validateOnClose
  rw [if_neg hc]
  by_cases hp : parseAlloyErrors stderr = []
  · rw [if_pos hp, hp]
  · rw [if_neg hp]

theorem procClose_lookup (s : RiverState) (d : DocId) (tag : Nat)
    (code : Option Int) (stderr : String) (h : (d, tag) ∈ s.inflight) :
    ((step (.procClose d tag code stderr) s).collection).lookup d
      = some (validateOnClose code stderr) := by
  show ((procCloseEv d tag code stderr s).collection).lookup d = _
  unfold procCloseEv
  rw [if_pos h]
  exact lookup_setKey_self d _ s.collection

/-! ## Claim C2 -/

/-- C2: whenever a background validation process for document `d` exits
with code 0, the completion handler stores the empty diagnostic sequence
for `d`, clearing any errors a previous validation had published. -/
theorem validate_exit_zero_clears (s : RiverState) (d : DocId) (tag : Nat)
    (stderr : String) (h : (d, tag) ∈ s.inflight) :
    ((step (.procClose d tag (some 0) stderr) s).collection).lookup d
      = some [] := by
  rw [procClose_lookup s d tag (some 0) stderr h]
  rfl

/-- Witness for C2: a state that had published an error for document 0
stores the empty sequence after a zero-exit completion. -/
theorem validate_exit_zero_clears_witness :
    ((0, 0) ∈ (⟨[(0, [{ line := 4, col := 5, message := "old" }])],
        [], [(0, 0)], 1, []⟩ : RiverState).inflight) ∧
    ((step (.procClose 0 0 (some 0) "")
        (⟨[(0, [{ line := 4, col := 5, message := "old" }])],
          [], [(0, 0)], 1, []⟩ : RiverState)).collection).lookup 0
      = some [] :=
  ⟨by decide, validate_exit_zero_clears _ 0 0 "" (by decide)⟩

/-! ## Claim C6 -/

/-- C6: whenever a background validation process exits with a non-zero
code, the handler parses the accumulated stderr; at least one record
replaces the document's diagnostics with exactly the parsed sequence, zero
records clear the diagnostics (empty sequence stored) — never left stale,
never reported as success. -/
theorem validate_exit_nonzero_diags (s : RiverState) (d : DocId) (tag : Nat)
    (code : Option Int) (stderr : String) (h : (d, tag) ∈ s.inflight)
    (hc : code ≠ some 0) :
    (parseAlloyErrors stderr ≠ [] →
      ((step (.procClose d tag code stderr) s).collection).lookup d
        = some (parseAlloyErrors stderr)) ∧
    (parseAlloyErrors stderr = [] →
      ((step (.procClose d tag code stderr) s).collection).lookup d
        = some []) := by
  have hbase := procClose_lookup s d tag code stderr h
  rw [validateOnClose_nonzero stderr hc] at hbase
  constructor
  · intro _
    exact hbase
  · intro hp
    rw [hbase, hp]

/-- Witness for C6: a failed validation with a positional stderr record
replaces document 0's diagnostics with the parsed record. -/
theorem validate_exit_nonzero_diags_witness :
    ((0, 0) ∈ (⟨[], [], [(0, 0)], 1, []⟩ : RiverState).inflight) ∧
    (some 1 : Option Int) ≠ some 0 ∧
    parseAlloyErrors "<stdin>:2:3: boom" ≠ [] ∧
    ((step (.procClose 0 0 (some 1) "<stdin>:2:3: boom")
        (⟨[], [], [(0, 0)], 1, []⟩ : RiverState)).collection).lookup 0
      = some (parseAlloyErrors "<stdin>:2:3: boom") :=
  ⟨by decide, by decide, by decide,
   (validate_exit_nonzero_diags _ 0 0 (some 1) "<stdin>:2:3: boom"
     (by decide) (by decide)).1 (by decide)⟩

/-! ## Claim C4 -/

/-- C4: when the formatter fails to start during background validation,
the child's `close` event fires with a `null` exit code and empty stderr;
the handler clears the document's diagnostics (stores the empty sequence),
and no scheduler transition ever produces a popup. -/
theorem validate_spawn_failure (s : RiverState) (d : DocId) (tag : Nat)
    (h : (d, tag) ∈ s.inflight) :
    ((step (.procClose d tag none "") s).collection).lookup d = some [] ∧
    (∀ e : Ev, (step e s).popups = s.popups) := by
  constructor
  · rw [procClose_lookup s d tag none "" h]
    rfl
  · intro e
    exact step_popups e s

/-- Witness for C4: a spawn-failure completion for document 0. -/
theorem validate_spawn_failure_witness :
    ((0, 0) ∈ (⟨[(0, [{ line := 1, col := 1, message := "stale" }])],
        [], [(0, 0)], 1, []⟩ : RiverState).inflight) ∧
    ((step (.procClose 0 0 none "")
        (⟨[(0, [{ line := 1, col := 1, message := "stale" }])],
          [], [(0, 0)], 1, []⟩ : RiverState)).collection).lookup 0
      = some [] :=
  ⟨by decide, (validate_spawn_failure _ 0 0 (by decide)).1⟩

/-! ## Claim C3 -/

/-- Counterexample for C3: a validation in flight when its document closes
is not discarded — its completion handler still runs `collection.set` and
re-creates diagnostics for the closed document.  The trace schedules and
fires a validation for document 0, closes the document, then delivers the
process result: the collection holds the parsed error again instead of
staying removed. -/
theorem close_then_late_result :
    ((run [.schedule 0, .fire 0 0 true, .closeDoc 0,
        .procClose 0 1 (some 1) "<stdin>:1:1: x"]).collection).lookup 0
      = some [{ line := 0, col := 0, message := "x" }] ∧
    ((run [.schedule 0, .fire 0 0 true, .closeDoc 0,
        .procClose 0 1 (some 1) "<stdin>:1:1: x"]).collection).lookup 0
      ≠ none := by
  constructor
  · decide
  · decide

/-- C3 as amended: closing a document does remove its published
diagnostics and its pending timer at that instant, but an in-flight
validation completing later re-applies its result through the completion
handler (`collection.set`), re-creating an entry for the closed
document. -/
theorem close_removes_state (s : RiverState) (d : DocId) :
    ((step (.closeDoc d) s).collection).lookup d = none ∧
    ((step (.closeDoc d) s).timers).lookup d = none ∧
    (∀ (s' : RiverState) (tag : Nat) (code : Option Int) (stderr : String),
      (d, tag) ∈ s'.inflight →
      ((step (.procClose d tag code stderr) s').collection).lookup d
        = some (validateOnClose code stderr)) := by
  refine ⟨?_, ?_, ?_⟩
  · exact lookup_eraseKey_self d s.collection
  · exact lookup_eraseKey_self d s.timers
  · intro s' tag code stderr h
    exact procClose_lookup s' d tag code stderr h

/-- Witness for the amended C3. -/
theorem close_removes_state_witness :
    ((step (.closeDoc 0) initState).collection).lookup 0 = none ∧
    ((0, 7) ∈ (⟨[], [], [(0, 7)], 8, []⟩ : RiverState).inflight) ∧
    ((step (.procClose 0 7 (some 1) "")
        (⟨[], [], [(0, 7)], 8, []⟩ : RiverState)).collection).lookup 0
      = some (validateOnClose (some 1) "") :=
  ⟨(close_removes_state initState 0).1, by decide,
   (close_removes_state initState 0).2.2 _ 7 (some 1) "" (by decide)⟩

/-! ## Claim C9 -/

/-- Counterexample for C9: in-flight background validations are not
tracked, so two can coexist for one document.  Scheduling and firing twice
for document 0 leaves two in-flight processes, refuting "at most one
in-flight background validation process per document". -/
theorem scheduler_two_inflight :
    (((run [.schedule 0, .fire 0 0 true, .schedule 0, .fire 0 2 true]
      ).inflight.map Prod.fst).count 0 = 2) ∧
    ¬ (((run [.schedule 0, .fire 0 0 true, .schedule 0, .fire 0 2 true]
      ).inflight.map Prod.fst).count 0 ≤ 1) := by
  constructor
  · decide
  · decide

/-- C9 as amended: every reachable state has at most one pending debounce
timer per document, and `scheduleValidate` cancels the previously pending
timer before installing the new one (afterwards the fresh timer is the only
entry for the document); but in-flight validation processes are untracked
and may overlap. -/
theorem scheduler_timer_unique :
    (∀ (evs : List Ev) (d : DocId),
      (((run evs).timers.map Prod.fst).count d) ≤ 1) ∧
    (∀ (s : RiverState) (d : DocId),
      ((step (.schedule d) s).timers).lookup d = some s.nextId ∧
      (((step (.schedule d) s).timers.map Prod.fst).count d) = 1) := by
  have hstep : ∀ (e : Ev) (s : RiverState),
      (∀ d, ((s.timers.map Prod.fst).count d) ≤ 1) →
      ∀ d, (((step e s).timers.map Prod.fst).count d) ≤ 1 := by
    intro e s hs d
    cases e with
    | schedule d' =>
      show (((scheduleValidate d' s).timers.map Prod.fst).count d) ≤ 1
      unfold scheduleValidate setKey
      by_cases hdd : d' = d
      · subst hdd
        simp only [List.map_cons, List.count_cons, count_eraseKey_self]
        simp
      · simp only [List.map_cons, List.count_cons]
        have : ((d' : DocId) == d) = false := by simpa using hdd
        rw [this]
        simpa using le_trans (count_eraseKey_le d' d s.timers) (hs d)
    | fire d' t writeOk =>
      show (((timerFire d' t writeOk s).timers.map Prod.fst).count d) ≤ 1
      unfold timerFire
      split
      · split
        · exact le_trans (count_eraseKey_le d' d s.timers) (hs d)
        · exact le_trans (count_eraseKey_le d' d s.timers) (hs d)
      · exact hs d
    | procClose d' tag code stderr =>
      show (((procCloseEv d' tag code stderr s).timers.map Prod.fst).count d) ≤ 1
      unfold procCloseEv
      split
      · exact hs d
      · exact hs d
    | closeDoc d' =>
      show (((closeDocEv d' s).timers.map Prod.fst).count d) ≤ 1
      unfold closeDocEv
      exact le_trans (count_eraseKey_le d' d s.timers) (hs d)
  constructor
  · intro evs d
    have key : ∀ (l : List Ev) (s : RiverState),
        (∀ d', ((s.timers.map Prod.fst).count d') ≤ 1) →
        ∀ d', (((l.foldl (fun s e => step e s) s).timers.map Prod.fst).count d') ≤ 1 := by
      intro l
      induction l with
      | nil => intro s hs d'; exact hs d'
      | cons e l' ih =>
        intro s hs d'
        exact ih (step e s) (hstep e s hs) d'
    exact key evs initState (fun d' => by simp [initState]) d
  · intro s d
    constructor
    · exact lookup_setKey_self d s.nextId s.timers
    · show (((setKey d s.nextId s.timers).map Prod.fst).count d) = 1
      unfold setKey
      simp only [List.map_cons, List.count_cons, count_eraseKey_self]
      simp

/-! ## `hasPositions` plumbing -/

theorem posTestAt_ne_lt {c : Char} (X : List Char) (hc : c ≠ '<') :
    posTestAt (c :: X) = false := by
  unfold posTestAt
  rw [if_neg]
  intro h
  rw [show (c :: X).take 8 = c :: X.take 7 from rfl] at h
  injection h with h1 _
  exact hc h1

theorem hasPositions_eq_false_of_no_lt {r : List Char}
    (h : ∀ c ∈ r, c ≠ '<') : hasPositions r = false := by
  induction r with
  | nil => rfl
  | cons c cs ih =>
    show (posTestAt (c :: cs) || hasPositions cs) = false
    rw [posTestAt_ne_lt cs (h c (List.mem_cons_self c cs)),
      ih (fun x hx => h x (List.mem_cons_of_mem c hx))]
    rfl

theorem hasPositions_append {p r : List Char} (hp : ∀ c ∈ p, c ≠ '<') :
    hasPositions (p ++ r) = hasPositions r := by
  induction p with
  | nil => rfl
  | cons c p' ih =>
    show (posTestAt (c :: (p' ++ r)) || hasPositions (p' ++ r)) = hasPositions r
    rw [posTestAt_ne_lt _ (hp c (List.mem_cons_self c p')),
      ih (fun x hx => hp x (List.mem_cons_of_mem c hx))]
    rfl

/-! ## Claim C5 -/

/-- C5: `runAlloyFmt` resolves with the accumulated stdout exactly when the
process exits with code 0; a non-zero exit rejects with the accumulated
stderr, or with a fallback naming the exit code when stderr is empty; and a
spawn failure yields the distinct rejection
`Failed to start formatter: <reason>`, which (for any reason without a `<`,
as Node spawn errors are) contains no positional marker and therefore
reaches the explicit-action popup instead of being parsed into
diagnostics. -/
theorem runAlloyFmt_spec (code : Option Int) (stdout stderr reason : String)
    (hc : code ≠ some 0) (hr : ∀ c ∈ reason.data, c ≠ '<') :
    (runAlloyFmt (.exited (some 0) stdout stderr) = .resolved stdout) ∧
    (∀ (c : Option Int) (o e x : String),
      runAlloyFmt (.exited c o e) = .resolved x → c = some 0 ∧ x = o) ∧
    (stderr ≠ "" → runAlloyFmt (.exited code stdout stderr) = .rejected stderr) ∧
    (runAlloyFmt (.exited code stdout "")
      = .rejected ("alloy fmt exited with code " ++ jsCodeToString code)) ∧
    (runAlloyFmt (.spawnError reason)
      = .rejected ("Failed to start formatter: " ++ reason)) ∧
    (hasPositions ("Failed to start formatter: " ++ reason).data = false) ∧
    (∀ lines, provideDocumentFormattingEdits lines (.spawnError reason)
      = ([], [formatFailedPopup ("Failed to start formatter: " ++ reason)])) := by
  have hnopos : hasPositions ("Failed to start formatter: " ++ reason).data
      = false := by
    rw [String.data_append, hasPositions_append (by decide)]
    exact hasPositions_eq_false_of_no_lt hr
  refine ⟨?_, ?_, ?_, ?_, ?_, hnopos, ?_⟩
  · simp [runAlloyFmt]
  · intro c o e x h
    simp only [runAlloyFmt] at h
    split at h
    · next hc0 =>
      cases h
      exact ⟨hc0, rfl⟩
    · cases h
  · intro hs
    simp only [runAlloyFmt]
    rw [if_neg hc, if_neg hs]
  · simp only [runAlloyFmt]
    rw [if_neg hc]
    simp
  · rfl
  · intro lines
    simp only [provideDocumentFormattingEdits, runAlloyFmt, hnopos]
    rfl

/-- Witness for C5 at a non-zero exit and a spawn failure. -/
theorem runAlloyFmt_spec_witness :
    (some 2 : Option Int) ≠ some 0 ∧
    (∀ c ∈ ("nope" : String).data, c ≠ '<') ∧
    ("err" : String) ≠ "" ∧
    runAlloyFmt (.exited (some 2) "out" "err") = .rejected "err" ∧
    runAlloyFmt (.exited (some 2) "out" "")
      = .rejected ("alloy fmt exited with code " ++ jsCodeToString (some 2)) :=
  ⟨by decide, by decide, by decide,
   (runAlloyFmt_spec (some 2) "out" "err" "nope" (by decide) (by decide)).2.2.1
     (by decide),
   (runAlloyFmt_spec (some 2) "out" "err" "nope" (by decide) (by decide)).2.2.2.1⟩

/-! ## Claim C7 -/

/-- C7: an explicit format action that succeeds (exit code 0) resolves to
no edits when the formatted output equals the document text, and otherwise
to exactly one edit replacing the full document range — from the start of
the first line to the end of the last line — with the formatted text; no
popup is shown. -/
theorem provideFmt_success (lines : List (List Char)) (stdout stderr : String) :
    (stdout = getText lines →
      provideDocumentFormattingEdits lines (.exited (some 0) stdout stderr)
        = ([], [])) ∧
    (stdout ≠ getText lines →
      provideDocumentFormattingEdits lines (.exited (some 0) stdout stderr)
        = ([⟨(0, 0), (lines.length - 1, (lines.getLastD []).length), stdout⟩],
           [])) := by
  constructor
  · intro h
    simp [provideDocumentFormattingEdits, runAlloyFmt, h]
  · intro h
    simp [provideDocumentFormattingEdits, runAlloyFmt, h, fullRange]

/-- Witness for C7: identical output produces no edits; changed output
produces the single full-range replacement. -/
theorem provideFmt_success_witness :
    ("a" : String) = getText [['a']] ∧
    provideDocumentFormattingEdits [['a']] (.exited (some 0) "a" "")
      = ([], []) ∧
    ("b" : String) ≠ getText [['a']] ∧
    provideDocumentFormattingEdits [['a']] (.exited (some 0) "b" "")
      = ([⟨(0, 0), (0, 1), "b"⟩], []) :=
  ⟨by decide, (provideFmt_success [['a']] "a" "").1 (by decide), by decide, by
    have h := (provideFmt_success [['a']] "b" "").2 (by decide)
    rw [h]
    decide⟩

/-! ## Claim C8 -/

/-- C8: when the explicit format action fails, a popup is shown exactly
when the rejection message contains no `<stdin>:digits:digits:` marker: a
positional failure produces no popup (diagnostics already surface it),
while any other failure produces exactly one error message containing the
raw failure text and the remediation hint. -/
theorem provideFmt_failure (lines : List (List Char)) (o : ProcOutcome)
    (msg : String) (h : runAlloyFmt o = .rejected msg) :
    (hasPositions msg.data = true →
      provideDocumentFormattingEdits lines o = ([], [])) ∧
    (hasPositions msg.data = false →
      provideDocumentFormattingEdits lines o = ([], [formatFailedPopup msg]) ∧
      (∃ a b : List Char, (formatFailedPopup msg).data = a ++ msg.data ++ b) ∧
      (∃ a b : List Char,
        (formatFailedPopup msg).data = a ++ riverHint.data ++ b)) := by
  constructor
  · intro hp
    simp only [provideDocumentFormattingEdits, h, hp]
    simp
  · intro hp
    refine ⟨?_, ?_, ?_⟩
    · simp only [provideDocumentFormattingEdits, h, hp]
      simp
    · refine ⟨"River format failed: ".data, " ".data ++ riverHint.data, ?_⟩
      unfold formatFailedPopup
      simp [String.data_append, List.append_assoc]
    · refine ⟨("River format failed: " ++ msg ++ " ").data, [], ?_⟩
      unfold formatFailedPopup
      simp [String.data_append, List.append_assoc]

/-- Witness for C8: a positional failure is silent; a spawn failure pops
exactly one message carrying the raw text and the hint. -/
theorem provideFmt_failure_witness :
    runAlloyFmt (.exited (some 1) "" "<stdin>:9:9: bad") =
      .rejected "<stdin>:9:9: bad" ∧
    hasPositions ("<stdin>:9:9: bad" : String).data = true ∧
    provideDocumentFormattingEdits [] (.exited (some 1) "" "<stdin>:9:9: bad")
      = ([], []) ∧
    runAlloyFmt (.spawnError "nope") =
      .rejected "Failed to start formatter: nope" ∧
    hasPositions ("Failed to start formatter: nope" : String).data = false ∧
    (provideDocumentFormattingEdits [] (.spawnError "nope")
      = ([], [formatFailedPopup "Failed to start formatter: nope"]) ∧
     (∃ a b : List Char, (formatFailedPopup "Failed to start formatter: nope").data
        = a ++ ("Failed to start formatter: nope" : String).data ++ b) ∧
     (∃ a b : List Char, (formatFailedPopup "Failed to start formatter: nope").data
        = a ++ riverHint.data ++ b)) :=
  ⟨by decide, by decide,
   (provideFmt_failure [] (.exited (some 1) "" "<stdin>:9:9: bad")
     "<stdin>:9:9: bad" (by decide)).1 (by decide),
   by decide, by decide,
   (provideFmt_failure [] (.spawnError "nope")
     "Failed to start formatter: nope" (by decide)).2 (by decide)⟩

end River
